import Mathlib

/-!
Shallow embedding of the `format_tools` helpers used by the notebooks of
this repository (`analyze_data.ipynb` and the formatting notebook).
The module `format_tools` itself is not part of the repository sources;
only its callers and their recorded outputs are.  Every operation below is
therefore modelled from the specification, and, where the specification
conflicts with outputs recorded in the formatting notebook, from those
recorded outputs (which are the repository's own evidence of behaviour).

Labels of hierarchical indexes are strings (condition names, observable
names) or natural numbers (the per-block "Sample" counter).  Sorting of
labels is lexicographic; strings compare by their character codes, which
matches the alphabetic orderings visible in the recorded notebook outputs.

The file is organised as definitions first (the data model and the five
modelled operations, all executable), then the theorems about them.
-/

namespace FormatTools

/-- Lexicographic comparison (non-strict) of lists of naturals. -/
def natLexLe : List Nat → List Nat → Bool
  | [], _ => true
  | _ :: _, [] => false
  | a :: as, b :: bs => if a = b then natLexLe as bs else decide (a < b)

/-- The character codes of a string, in order. -/
def codes (s : String) : List Nat := s.data.map Char.toNat

/-- Lexicographic comparison of strings by character codes. -/
def strLe (a b : String) : Bool := natLexLe (codes a) (codes b)

/-- A label of one level of a hierarchical index: either a string (a
condition or observable name) or a natural number (a sample counter). -/
inductive Label where
  | str : String → Label
  | num : Nat → Label
deriving DecidableEq, Repr

/-- Default label used by positional lookups that are always in range. -/
def dLab : Label := Label.num 0

/-- Comparison of labels: numbers before strings, each kind ordered
naturally. -/
def Label.ble : Label → Label → Bool
  | .num a, .num b => decide (a ≤ b)
  | .num _, .str _ => true
  | .str _, .num _ => false
  | .str a, .str b => strLe a b

/-- Lexicographic comparison of label tuples. -/
def lexLe : List Label → List Label → Bool
  | [], _ => true
  | _ :: _, [] => false
  | a :: as, b :: bs => if a = b then lexLe as bs else Label.ble a b

/-- A hierarchical index on one axis of a table: an ordered list of level
names (outermost first) and, for each axis entry, the tuple of its label
values, one per level. -/
structure MIndex where
  names : List String
  tuples : List (List Label)
deriving DecidableEq, Repr

/-- A labeled 2-D numeric table: a hierarchical row index, a hierarchical
column index and the grid of values, stored row by row. -/
structure Table where
  rows : MIndex
  cols : MIndex
  values : List (List Int)
deriving DecidableEq, Repr

/-- The error kinds named by the specification, plus the key-lookup error
raised when a named index level does not exist. -/
inductive FError where
  | NotFoundError
  | CorruptDataError
  | ShapeMismatchError
  | PartitionError
  | LevelNotFoundError
deriving DecidableEq, Repr

/-- The index on the axis selected by the boolean flag used throughout the
notebooks: `false` selects rows (axis 0), `true` selects columns (axis 1). -/
def axisIndex (t : Table) (axis : Bool) : MIndex := if axis then t.cols else t.rows

/-- Tag every element of a list with its position, starting at `i`. -/
def idxTag : Nat → List α → List (Nat × α)
  | _, [] => []
  | i, a :: as => (i, a) :: idxTag (i + 1) as

/-- Product of a list of naturals. -/
def prodNat : List Nat → Nat
  | [] => 1
  | n :: ns => n * prodNat ns

/-- Cartesian product of a list of lists, the first list varying slowest
(row-major / C order). -/
def cartProd : List (List α) → List (List α)
  | [] => [[]]
  | l :: ls => l.flatMap (fun x => (cartProd ls).map (x :: ·))

/-- All multi-indexes of a given shape, in row-major order. -/
def cartRange (ns : List Nat) : List (List Nat) := cartProd (ns.map List.range)

/-- Row-major multi-index of flattened position `k` in shape `ns`. -/
def unflatten : List Nat → Nat → List Nat
  | [], _ => []
  | _ :: ns, k => k / prodNat ns :: unflatten ns (k % prodNat ns)

/-- Row-major flattened position of multi-index `is` in shape `ns`. -/
def flatIdx : List Nat → List Nat → Nat
  | _, [] => 0
  | [], _ => 0
  | _ :: ss, i :: is => i * prodNat ss + flatIdx ss is

/-- Select, for a multi-index, the label of each axis at its index. -/
def selectLabels : List (List Label) → List Nat → List Label
  | [], _ => []
  | _ :: _, [] => []
  | l :: ls, i :: is => l.getD i dLab :: selectLabels ls is

/-- An N-dimensional numeric array: a shape and the row-major flat data. -/
structure NDArr where
  shape : List Nat
  data : List Int
deriving DecidableEq, Repr

/-- Value of an array at a multi-index (out-of-range positions read 0). -/
def ndGet (arr : NDArr) (is : List Nat) : Int :=
  arr.data.getD (flatIdx arr.shape is) 0

/-- Modelled from the spec: `df_from_blocks` of the missing `format_tools`
module.  Concatenates 2-D blocks (one per condition) into a Table; each
block's rows are labeled with that block's condition tuple followed by a
zero-based within-block sample counter, blocks in input order.  Fails with
`ShapeMismatchError` when the number of condition tuples differs from the
number of blocks or some block row disagrees with the observable count. -/
def df_from_blocks (blocks : List (List (List Int))) (labels : List (List Label))
    (obs_labels : List Label) (axes_names : List String) : Except FError Table :=
  if labels.length = blocks.length
      ∧ ∀ b ∈ blocks, ∀ row ∈ b, row.length = obs_labels.length then
    .ok ⟨⟨axes_names ++ ["Sample"],
          (blocks.zip labels).flatMap
            (fun p => (List.range p.1.length).map (fun i => p.2 ++ [Label.num i]))⟩,
         ⟨["Observables"], obs_labels.map ([·])⟩,
         blocks.flatMap id⟩
  else .error .ShapeMismatchError

/-- Modelled from the spec: `df_from_ndarray` of the missing `format_tools`
module.  Moves the observable axis last, flattens the remaining axes
row-major into the row dimension (here by explicit index arithmetic:
row `k`, column `c` reads the array at the multi-index obtained by
inserting `c` at the observable position into `unflatten ns k`), and
labels the rows with the Cartesian product of the per-axis label lists.
Fails with `ShapeMismatchError` when a label list disagrees with its
axis extent. -/
def df_from_ndarray (arr : NDArr) (param_labels : List (List Label)) (obs_axis : Nat)
    (obs_labels : List Label) (axes_names : List String) : Except FError Table :=
  let ns := arr.shape.eraseIdx obs_axis
  if obs_axis < arr.shape.length
      ∧ param_labels.length = ns.length
      ∧ (∀ p ∈ param_labels.zip ns, p.1.length = p.2)
      ∧ obs_labels.length = arr.shape.getD obs_axis 0 then
    .ok ⟨⟨axes_names, cartProd param_labels⟩,
         ⟨["Observables"], obs_labels.map ([·])⟩,
         (List.range (prodNat ns)).map (fun k =>
           (List.range obs_labels.length).map (fun c =>
             ndGet arr (List.insertIdx obs_axis c (unflatten ns k))))⟩
  else .error .ShapeMismatchError

/-- Position of a level name in a list of level names. -/
def levelPos : List String → String → Option Nat
  | [], _ => none
  | n :: ns, lg => if n = lg then some 0 else (levelPos ns lg).map (· + 1)

/-- The distinct values appearing at level `j` of a list of tuples. -/
def levelValues (tuples : List (List Label)) (j : Nat) : List Label :=
  (tuples.map (fun u => u.getD j dLab)).dedup

/-- Number of partition sets containing a given value. -/
def groupCount (groups : List (Label × List Label)) (v : Label) : Nat :=
  (groups.filter (fun g => decide (v ∈ g.2))).length

/-- A partition is usable iff every distinct level value lies in exactly
one partition set. -/
def partitionOk (groups : List (Label × List Label)) (vals : List Label) : Bool :=
  vals.all (fun v => groupCount groups v == 1)

/-- The group label assigned to a level value (the first set containing it;
under a valid partition there is exactly one). -/
def groupOf (groups : List (Label × List Label)) (v : Label) : Label :=
  ((groups.filter (fun g => decide (v ∈ g.2))).map Prod.fst).headD dLab

/-- New label tuple of an axis entry after regrouping level `j`: the group
label, then the regrouped level's value, then the remaining levels in
their original order. -/
def relabelTuple (groups : List (Label × List Label)) (j : Nat) (u : List Label) :
    List Label :=
  groupOf groups (u.getD j dLab) :: u.getD j dLab :: u.eraseIdx j

/-- Lexicographic tuple comparison as a relation. -/
def lexRel (u v : List Label) : Prop := lexLe u v = true

/-- Label comparison as a relation. -/
def bleRel (a b : Label) : Prop := a.ble b = true

/-- Comparison of position-tagged tuples by tuple only (so sorting is
stable with respect to original positions). -/
def tagLe (a b : Nat × List Label) : Prop := lexLe a.2 b.2 = true

instance : DecidableRel tagLe := fun _ _ => inferInstanceAs (Decidable (_ = true))

/-- Stable lexicographic sort of position-tagged label tuples. -/
def sortTagged (l : List (Nat × List Label)) : List (Nat × List Label) :=
  List.insertionSort tagLe l

/-- The sorted position-tagged relabeled tuples of an index being
regrouped at level `j`. -/
def regroupTags (groups : List (Label × List Label)) (j : Nat) (idx : MIndex) :
    List (Nat × List Label) :=
  sortTagged (idxTag 0 (idx.tuples.map (relabelTuple groups j)))

/-- Modelled from the spec: `regroup_levels` of the missing `format_tools`
module.  Where the spec's prose conflicts with the notebook's recorded
outputs (the `regrouped_df` / `regrouped_df2` cells), the recorded outputs
are followed: the new group level and the regrouped level move to the two
outermost positions of the chosen axis and the axis entries are re-sorted
lexicographically over the new level order.  Fails with `PartitionError`
unless the partition covers each distinct value of the regrouped level
exactly once. -/
def regroup_levels (t : Table) (groups : List (Label × List Label))
    (level_group : String) (axis : Bool) (name : String) : Except FError Table :=
  let idx := axisIndex t axis
  match levelPos idx.names level_group with
  | none => .error .LevelNotFoundError
  | some j =>
    if partitionOk groups (levelValues idx.tuples j) then
      let sorted := regroupTags groups j idx
      let newIdx : MIndex :=
        ⟨name :: level_group :: idx.names.eraseIdx j, sorted.map Prod.snd⟩
      if axis then
        .ok ⟨t.rows, newIdx,
             t.values.map (fun row => sorted.map (fun e => row.getD e.1 0))⟩
      else
        .ok ⟨newIdx, t.cols, sorted.map (fun e => t.values.getD e.1 [])⟩
    else .error .PartitionError

/-- The original level combination of a tuple after regrouping level `j`,
read back by dropping the inserted group level: the regrouped level's
value followed by the remaining levels. -/
def moveFront (j : Nat) (u : List Label) : List Label :=
  u.getD j dLab :: u.eraseIdx j

/-- A tuple of an already-regrouped index, regrouped again at its level 1:
the group label and the regrouped value stay in front and a second copy of
the group label is inserted behind them. -/
def dupTuple (u : List Label) : List Label :=
  u.headD dLab :: u.getD 1 dLab :: u.headD dLab :: u.drop 2

/-- Whether an `Except` result is a success. -/
def isOkE : Except FError Table → Bool
  | .ok _ => true
  | .error _ => false

/-- A persistable object: one of the Table's constituent types (a numeric
scalar, a label sequence, a numeric grid) or a whole Table.  This is the
value universe of the pickle load/save wrappers. -/
inductive PValue where
  | scalar : Int → PValue
  | labels : List Label → PValue
  | grid : List (List Int) → PValue
  | table : Table → PValue
deriving DecidableEq, Repr

/-- Encode a natural as one byte-like token. -/
def encNat (n : Nat) : List Nat := [n]

/-- Encode an integer as a sign token and a magnitude token. -/
def encInt : Int → List Nat
  | .ofNat n => 0 :: encNat n
  | .negSucc n => 1 :: encNat n

/-- Encode a list as its length followed by the encodings of its
elements. -/
def encList (enc : α → List Nat) (l : List α) : List Nat :=
  l.length :: l.flatMap enc

/-- Encode a string as the list of its character codes. -/
def encStr (s : String) : List Nat := encList encNat (codes s)

/-- Encode a label with a constructor tag. -/
def encLabel : Label → List Nat
  | .str s => 0 :: encStr s
  | .num n => 1 :: encNat n

/-- Encode a hierarchical index as its names then its tuples. -/
def encMIndex (m : MIndex) : List Nat :=
  encList encStr m.names ++ encList (encList encLabel) m.tuples

/-- Encode a numeric grid row by row. -/
def encGrid (g : List (List Int)) : List Nat := encList (encList encInt) g

/-- Encode a table as rows, columns, values. -/
def encTable (t : Table) : List Nat := encMIndex t.rows ++ encMIndex t.cols ++ encGrid t.values

/-- Encode a persistable object with a constructor tag: this is the
opaque binary format of the persistence layer. -/
def encPValue : PValue → List Nat
  | .scalar i => 0 :: encInt i
  | .labels ls => 1 :: encList encLabel ls
  | .grid g => 2 :: encGrid g
  | .table t => 3 :: encTable t

/-- Decode one natural, returning the remaining input. -/
def decNat : List Nat → Option (Nat × List Nat)
  | [] => none
  | n :: rest => some (n, rest)

/-- Decode one integer. -/
def decInt : List Nat → Option (Int × List Nat)
  | 0 :: n :: rest => some (Int.ofNat n, rest)
  | 1 :: n :: rest => some (Int.negSucc n, rest)
  | _ => none

/-- Decode `k` values with the given element decoder. -/
def decListAux (dec : List Nat → Option (α × List Nat)) :
    Nat → List Nat → Option (List α × List Nat)
  | 0, rest => some ([], rest)
  | k + 1, rest =>
    match dec rest with
    | none => none
    | some (a, r₁) =>
      match decListAux dec k r₁ with
      | none => none
      | some (as, r₂) => some (a :: as, r₂)

/-- Decode a length-prefixed list. -/
def decList (dec : List Nat → Option (α × List Nat)) (l : List Nat) :
    Option (List α × List Nat) :=
  match decNat l with
  | none => none
  | some (n, rest) => decListAux dec n rest

/-- Decode a string from its character codes. -/
def decStr (l : List Nat) : Option (String × List Nat) :=
  match decList decNat l with
  | none => none
  | some (ns, rest) => some (⟨ns.map Char.ofNat⟩, rest)

/-- Decode one label. -/
def decLabel : List Nat → Option (Label × List Nat)
  | 0 :: rest =>
    match decStr rest with
    | none => none
    | some (s, r) => some (.str s, r)
  | 1 :: rest =>
    match decNat rest with
    | none => none
    | some (n, r) => some (.num n, r)
  | _ => none

/-- Decode a hierarchical index. -/
def decMIndex (l : List Nat) : Option (MIndex × List Nat) :=
  match decList decStr l with
  | none => none
  | some (names, r₁) =>
    match decList (decList decLabel) r₁ with
    | none => none
    | some (tuples, r₂) => some (⟨names, tuples⟩, r₂)

/-- Decode a numeric grid. -/
def decGrid (l : List Nat) : Option (List (List Int) × List Nat) :=
  decList (decList decInt) l

/-- Decode a table. -/
def decTable (l : List Nat) : Option (Table × List Nat) :=
  match decMIndex l with
  | none => none
  | some (rows, r₁) =>
    match decMIndex r₁ with
    | none => none
    | some (cols, r₂) =>
      match decGrid r₂ with
      | none => none
      | some (values, r₃) => some (⟨rows, cols, values⟩, r₃)

/-- Decode a persistable object. -/
def decPValue : List Nat → Option (PValue × List Nat)
  | 0 :: rest =>
    match decInt rest with
    | none => none
    | some (i, r) => some (.scalar i, r)
  | 1 :: rest =>
    match decList decLabel rest with
    | none => none
    | some (ls, r) => some (.labels ls, r)
  | 2 :: rest =>
    match decGrid rest with
    | none => none
    | some (g, r) => some (.grid g, r)
  | 3 :: rest =>
    match decTable rest with
    | none => none
    | some (t, r) => some (.table t, r)
  | _ => none

/-- A file system snapshot for the persistence layer: paths mapped to the
binary blobs stored at them, most recent write first. -/
def Store := List (String × List Nat)

/-- First blob stored at a path, if any. -/
def lookupStore : Store → String → Option (List Nat)
  | [], _ => none
  | (p, bs) :: rest, q => if p = q then some bs else lookupStore rest q

/-- Modelled from the spec: `save_object` of the missing `format_tools`
module.  Serializes the object and writes the blob at the path,
overwriting any previous blob there (the newest write shadows older
ones). -/
def save_object (v : PValue) (path : String) (st : Store) : Store :=
  (path, encPValue v) :: st

/-- Modelled from the spec: `load_object` of the missing `format_tools`
module.  Reads the blob at the path and deserializes it; fails with
`NotFoundError` when the path is absent and `CorruptDataError` when the
bytes decode to no object. -/
def load_object (path : String) (st : Store) : Except FError PValue :=
  match lookupStore st path with
  | none => .error .NotFoundError
  | some bs =>
    match decPValue bs with
    | some (v, []) => .ok v
    | _ => .error .CorruptDataError

/-- String comparison as a relation, for sorting directory listings. -/
def strRel (a b : String) : Prop := strLe a b = true

instance : DecidableRel strRel := fun _ _ => inferInstanceAs (Decidable (_ = true))

/-- Modelled from the spec: the Discovery operation (`list_available`).
The repository only inlines directory listings in notebook cells (one
sorted, one not); the spec's operation lists a directory snapshot,
filters by a predicate, sorts lexicographically and enumerates from 0. -/
def list_available (entries : List String) (pred : String → Bool) :
    List (Nat × String) :=
  idxTag 0 (List.insertionSort strRel (entries.filter pred))

/-- Cumulative number of sample rows in the blocks before block `bi`. -/
def blockOffset (blocks : List (List (List Int))) (bi : Nat) : Nat :=
  ((blocks.take bi).map List.length).sum

/-- A trivial single-column index used by the concrete example tables. -/
def oneColIndex : MIndex := ⟨["Observables"], [[Label.str "o"]]⟩

/-- Example table with two row levels `T` (outer) and `P` (inner). -/
def tTP : Table :=
  ⟨⟨["T", "P"], [[Label.str "t1", Label.str "p1"], [Label.str "t1", Label.str "p2"]]⟩,
   oneColIndex, [[1], [2]]⟩

/-- Partition of the `P` values of `tTP` into the single group `g`. -/
def gTP : List (Label × List Label) := [(Label.str "g", [Label.str "p1", Label.str "p2"])]

/-- The regrouped form of `tTP`: the group level and `P` move outermost. -/
def tTPout : Table :=
  ⟨⟨["G", "P", "T"],
    [[Label.str "g", Label.str "p1", Label.str "t1"],
     [Label.str "g", Label.str "p2", Label.str "t1"]]⟩,
   oneColIndex, [[1], [2]]⟩

/-- Example table with the single row level `P`. -/
def tP : Table :=
  ⟨⟨["P"], [[Label.str "p1"], [Label.str "p2"]]⟩, oneColIndex, [[1], [2]]⟩

/-- A partition of the `P` values whose iteration order (`b` then `a`)
differs from the alphabetic order of the group labels. -/
def gBA : List (Label × List Label) :=
  [(Label.str "b", [Label.str "p1"]), (Label.str "a", [Label.str "p2"])]

/-- The regrouped form of `tP` under `gBA`: groups come out sorted by
label, not in the partition's iteration order. -/
def tPout : Table :=
  ⟨⟨["G", "P"],
    [[Label.str "a", Label.str "p2"], [Label.str "b", Label.str "p1"]]⟩,
   oneColIndex, [[2], [1]]⟩

/-- Partition of the `P` values of `tP` into the single group `g`. -/
def gP : List (Label × List Label) := [(Label.str "g", [Label.str "p1", Label.str "p2"])]

/-- `tP` once regrouped with `gP`. -/
def tP1 : Table :=
  ⟨⟨["G", "P"],
    [[Label.str "g", Label.str "p1"], [Label.str "g", Label.str "p2"]]⟩,
   oneColIndex, [[1], [2]]⟩

/-- `tP` twice regrouped with `gP`: a second copy of the group level
appears; values and entry order are unchanged. -/
def tP2 : Table :=
  ⟨⟨["G", "P", "G"],
    [[Label.str "g", Label.str "p1", Label.str "g"],
     [Label.str "g", Label.str "p2", Label.str "g"]]⟩,
   oneColIndex, [[1], [2]]⟩

/-- A partition that omits the value `p2` of level `P`. -/
def gOmit : List (Label × List Label) := [(Label.str "g", [Label.str "p1"])]

/-- A partition that assigns the value `p2` to two groups. -/
def gDup : List (Label × List Label) :=
  [(Label.str "g", [Label.str "p1", Label.str "p2"]), (Label.str "h", [Label.str "p2"])]

/-- Example 4-entry table on levels `T`, `P` whose regroup exercises group
ordering and within-group sorting. -/
def tTP4 : Table :=
  ⟨⟨["T", "P"],
    [[Label.str "t2", Label.str "p1"], [Label.str "t1", Label.str "p2"],
     [Label.str "t2", Label.str "p2"], [Label.str "t1", Label.str "p1"]]⟩,
   oneColIndex, [[1], [2], [3], [4]]⟩

/-- The example (2,3,4) array of the spec's reshape property: entries
`0..23` in row-major order. -/
def arr234 : NDArr := ⟨[2, 3, 4], (List.range 24).map Int.ofNat⟩

/-- Axis labels of `arr234`'s two non-observable axes. -/
def pls234 : List (List Label) :=
  [[Label.str "a", Label.str "b"], [Label.str "x", Label.str "y", Label.str "z"]]

/-- Observable labels of `arr234`'s last axis. -/
def obs234 : List Label :=
  [Label.str "o1", Label.str "o2", Label.str "o3", Label.str "o4"]

/-- The blocks of the spec's block-concatenation property. -/
def blocksEx : List (List (List Int)) := [[[1, 2]], [[3, 4], [5, 6]]]

/-- Condition labels of `blocksEx`. -/
def labelsEx : List (List Label) := [[Label.str "c1"], [Label.str "c2"]]

/-- Observable labels of `blocksEx`. -/
def obsEx : List Label := [Label.str "v1", Label.str "v2"]

/-- The notebook's `df2` inputs: a (4,5,6) array holding `0..119`. -/
def arrNB : NDArr := ⟨[4, 5, 6], (List.range 120).map Int.ofNat⟩

/-- The notebook's temperature labels. -/
def tempsNB : List Label :=
  [Label.str "10 C", Label.str "20 C", Label.str "30 C", Label.str "40 C"]

/-- The notebook's pressure labels. -/
def pressNB : List Label :=
  [Label.str "0 atm", Label.str "1 atm", Label.str "2 atm",
   Label.str "3 atm", Label.str "4 atm"]

/-- The notebook's observable labels. -/
def obsNB : List Label :=
  [Label.str "vx", Label.str "vy", Label.str "vz",
   Label.str "x", Label.str "y", Label.str "z"]

/-- The notebook's pressure partition (`regrouped_df2` cell), in its
dictionary's iteration order: burst, fine, faint, crush. -/
def groupsNB : List (Label × List Label) :=
  [(Label.str "burst", [Label.str "0 atm"]),
   (Label.str "fine", [Label.str "1 atm"]),
   (Label.str "faint", [Label.str "2 atm"]),
   (Label.str "crush", [Label.str "3 atm", Label.str "4 atm"])]

/-- The notebook's coordinate partition (`regrouped_df` cell). -/
def groupsXYZ : List (Label × List Label) :=
  [(Label.str "X", [Label.str "x", Label.str "vx"]),
   (Label.str "Y", [Label.str "y", Label.str "vy"]),
   (Label.str "Z", [Label.str "z", Label.str "vz"])]

/-- Two small integer blocks with the notebook's six observables, standing
in for the random blocks of the `df_from_blocks` cell. -/
def blocksNB : List (List (List Int)) := [[[1, 2, 3, 4, 5, 6]], [[7, 8, 9, 10, 11, 12]]]

/-- Condition labels for `blocksNB`. -/
def labelsNB : List (List Label) :=
  [[Label.str "10 C", Label.str "1 atm"], [Label.str "20 C", Label.str "2 atm"]]

/-- The regrouped form of `tTP4`: rows fully sorted over (G, P, T). -/
def tTP4out : Table :=
  ⟨⟨["G", "P", "T"],
    [[Label.str "g", Label.str "p1", Label.str "t1"],
     [Label.str "g", Label.str "p1", Label.str "t2"],
     [Label.str "g", Label.str "p2", Label.str "t1"],
     [Label.str "g", Label.str "p2", Label.str "t2"]]⟩,
   oneColIndex, [[4], [1], [2], [3]]⟩

/-- The Table built from `blocksEx`: exactly the spec's example rows. -/
def tBlocksOut : Table :=
  ⟨⟨["Condition", "Sample"],
    [[Label.str "c1", Label.num 0], [Label.str "c2", Label.num 0],
     [Label.str "c2", Label.num 1]]⟩,
   ⟨["Observables"], [[Label.str "v1"], [Label.str "v2"]]⟩,
   [[1, 2], [3, 4], [5, 6]]⟩

/-- The Table built from `arr234`: six label pairs against four
observables, values in row-major order. -/
def tNDOut : Table :=
  ⟨⟨["ax0", "ax1"],
    [[Label.str "a", Label.str "x"], [Label.str "a", Label.str "y"],
     [Label.str "a", Label.str "z"], [Label.str "b", Label.str "x"],
     [Label.str "b", Label.str "y"], [Label.str "b", Label.str "z"]]⟩,
   ⟨["Observables"],
    [[Label.str "o1"], [Label.str "o2"], [Label.str "o3"], [Label.str "o4"]]⟩,
   [[0, 1, 2, 3], [4, 5, 6, 7], [8, 9, 10, 11],
    [12, 13, 14, 15], [16, 17, 18, 19], [20, 21, 22, 23]]⟩

theorem natLexLe_refl : ∀ u, natLexLe u u = true
  | [] => rfl
  | _ :: as => by simp [natLexLe, natLexLe_refl as]

theorem natLexLe_total : ∀ u v, natLexLe u v = true ∨ natLexLe v u = true
  | [], _ => Or.inl rfl
  | _ :: _, [] => Or.inr rfl
  | a :: as, b :: bs => by
    by_cases hab : a = b
    · subst hab
      simpa [natLexLe] using natLexLe_total as bs
    · rcases Nat.lt_or_ge a b with h | h
      · exact Or.inl (by simp [natLexLe, hab, h])
      · have hlt : b < a := lt_of_le_of_ne h (fun hh => hab hh.symm)
        exact Or.inr (by simp [natLexLe, Ne.symm hab, hlt])

theorem natLexLe_antisymm : ∀ u v, natLexLe u v = true → natLexLe v u = true → u = v
  | [], [], _, _ => rfl
  | [], _ :: _, _, h => by simp [natLexLe] at h
  | _ :: _, [], h, _ => by simp [natLexLe] at h
  | a :: as, b :: bs, h₁, h₂ => by
    by_cases hab : a = b
    · subst hab
      simp only [natLexLe, if_pos rfl] at h₁ h₂
      exact congrArg (a :: ·) (natLexLe_antisymm as bs h₁ h₂)
    · simp only [natLexLe, if_neg hab, if_neg (Ne.symm hab), decide_eq_true_eq] at h₁ h₂
      exact absurd (Nat.lt_trans h₁ h₂) (Nat.lt_irrefl a)

theorem natLexLe_trans : ∀ u v w, natLexLe u v = true → natLexLe v w = true →
    natLexLe u w = true
  | [], _, _, _, _ => rfl
  | _ :: _, [], _, h, _ => by simp [natLexLe] at h
  | _ :: _, _ :: _, [], _, h => by simp [natLexLe] at h
  | a :: as, b :: bs, c :: cs, h₁, h₂ => by
    by_cases hab : a = b
    · subst hab
      simp only [natLexLe, if_pos rfl] at h₁
      by_cases hac : a = c
      · subst hac
        simp only [natLexLe, if_pos rfl] at h₂ ⊢
        exact natLexLe_trans as bs cs h₁ h₂
      · simpa [natLexLe, hac] using h₂
    · simp only [natLexLe, if_neg hab, decide_eq_true_eq] at h₁
      by_cases hbc : b = c
      · subst hbc
        simp [natLexLe, hab, h₁]
      · simp only [natLexLe, if_neg hbc, decide_eq_true_eq] at h₂
        have hac : a < c := Nat.lt_trans h₁ h₂
        simp [natLexLe, Nat.ne_of_lt hac, hac]

theorem codes_inj {a b : String} (h : codes a = codes b) : a = b := by
  have hdata : a.data = b.data := by
    have hinj : Function.Injective Char.toNat := by
      intro x y hxy
      exact Char.eq_of_val_eq (UInt32.toNat.inj hxy)
    exact List.map_injective_iff.mpr hinj h
  cases a
  cases b
  exact congrArg String.mk hdata

theorem strLe_refl (a : String) : strLe a a = true := natLexLe_refl _

theorem strLe_total (a b : String) : strLe a b = true ∨ strLe b a = true :=
  natLexLe_total _ _

theorem strLe_antisymm {a b : String} (h₁ : strLe a b = true) (h₂ : strLe b a = true) :
    a = b :=
  codes_inj (natLexLe_antisymm _ _ h₁ h₂)

theorem strLe_trans {a b c : String} (h₁ : strLe a b = true) (h₂ : strLe b c = true) :
    strLe a c = true :=
  natLexLe_trans _ _ _ h₁ h₂

theorem ble_refl : ∀ a : Label, a.ble a = true
  | .str s => strLe_refl s
  | .num _ => by simp [Label.ble]

theorem ble_total : ∀ a b : Label, a.ble b = true ∨ b.ble a = true
  | .num _, .num _ => by simpa [Label.ble] using Nat.le_total _ _
  | .num _, .str _ => Or.inl rfl
  | .str _, .num _ => Or.inr rfl
  | .str a, .str b => strLe_total a b

theorem ble_antisymm : ∀ {a b : Label}, a.ble b = true → b.ble a = true → a = b
  | .num _, .num _, h₁, h₂ => by
    simp only [Label.ble, decide_eq_true_eq] at h₁ h₂
    exact congrArg Label.num (Nat.le_antisymm h₁ h₂)
  | .num _, .str _, _, h => by simp [Label.ble] at h
  | .str _, .num _, h, _ => by simp [Label.ble] at h
  | .str _, .str _, h₁, h₂ => congrArg Label.str (strLe_antisymm h₁ h₂)

theorem ble_trans : ∀ {a b c : Label}, a.ble b = true → b.ble c = true → a.ble c = true
  | .num _, .num _, .num _, h₁, h₂ => by
    simp only [Label.ble, decide_eq_true_eq] at h₁ h₂ ⊢
    exact Nat.le_trans h₁ h₂
  | .num _, _, .str _, _, _ => rfl
  | .num _, .str _, .num _, _, h => by simp [Label.ble] at h
  | .str _, .num _, _, h, _ => by simp [Label.ble] at h
  | .str _, .str _, .num _, _, h => by simp [Label.ble] at h
  | .str _, .str _, .str _, h₁, h₂ => strLe_trans h₁ h₂

theorem lexLe_refl : ∀ u, lexLe u u = true
  | [] => rfl
  | _ :: as => by simp [lexLe, lexLe_refl as]

theorem lexLe_total : ∀ u v, lexLe u v = true ∨ lexLe v u = true
  | [], _ => Or.inl rfl
  | _ :: _, [] => Or.inr rfl
  | a :: as, b :: bs => by
    by_cases hab : a = b
    · subst hab
      simpa [lexLe] using lexLe_total as bs
    · simpa [lexLe, hab, Ne.symm hab] using ble_total a b

theorem lexLe_antisymm : ∀ {u v}, lexLe u v = true → lexLe v u = true → u = v
  | [], [], _, _ => rfl
  | [], _ :: _, _, h => by simp [lexLe] at h
  | _ :: _, [], h, _ => by simp [lexLe] at h
  | a :: as, b :: bs, h₁, h₂ => by
    by_cases hab : a = b
    · subst hab
      simp only [lexLe, if_pos rfl] at h₁ h₂
      exact congrArg (a :: ·) (lexLe_antisymm h₁ h₂)
    · simp only [lexLe, if_neg hab, if_neg (Ne.symm hab)] at h₁ h₂
      exact absurd (ble_antisymm h₁ h₂) hab

theorem lexLe_trans : ∀ {u v w}, lexLe u v = true → lexLe v w = true → lexLe u w = true
  | [], _, _, _, _ => rfl
  | _ :: _, [], _, h, _ => by simp [lexLe] at h
  | _ :: _, _ :: _, [], _, h => by simp [lexLe] at h
  | a :: as, b :: bs, c :: cs, h₁, h₂ => by
    by_cases hab : a = b
    · subst hab
      simp only [lexLe, if_pos rfl] at h₁
      by_cases hac : a = c
      · subst hac
        simp only [lexLe, if_pos rfl] at h₂ ⊢
        exact lexLe_trans h₁ h₂
      · simpa [lexLe, hac] using h₂
    · simp only [lexLe, if_neg hab] at h₁
      by_cases hbc : b = c
      · subst hbc
        simp [lexLe, hab, h₁]
      · simp only [lexLe, if_neg hbc] at h₂
        have hac : a ≠ c := by
          intro h
          subst h
          exact hab (ble_antisymm h₁ h₂)
        simp [lexLe, hac, ble_trans h₁ h₂]

theorem lexLe_head {a b : Label} {as bs : List Label}
    (h : lexLe (a :: as) (b :: bs) = true) : a.ble b = true := by
  by_cases hab : a = b
  · subst hab
    exact ble_refl a
  · simpa [lexLe, hab] using h

theorem tagLe_isTotal : IsTotal (Nat × List Label) tagLe :=
  ⟨fun a b => lexLe_total a.2 b.2⟩

theorem tagLe_isTrans : IsTrans (Nat × List Label) tagLe :=
  ⟨fun _ _ _ h₁ h₂ => lexLe_trans h₁ h₂⟩

theorem strRel_isTotal : IsTotal String strRel := ⟨strLe_total⟩

theorem strRel_isTrans : IsTrans String strRel := ⟨fun _ _ _ => strLe_trans⟩

theorem sortTagged_sorted (l : List (Nat × List Label)) :
    (sortTagged l).Sorted tagLe :=
  @List.sorted_insertionSort _ tagLe _ tagLe_isTotal tagLe_isTrans l

theorem sortTagged_perm (l : List (Nat × List Label)) : (sortTagged l).Perm l :=
  List.perm_insertionSort tagLe l

theorem sortTagged_eq_of_sorted {l : List (Nat × List Label)}
    (h : l.Sorted tagLe) : sortTagged l = l :=
  h.insertionSort_eq

theorem map_snd_idxTag : ∀ (i : Nat) (l : List α), (idxTag i l).map Prod.snd = l
  | _, [] => rfl
  | i, _ :: as => by simp [idxTag, map_snd_idxTag (i + 1) as]

theorem map_fst_idxTag : ∀ (i : Nat) (l : List α),
    (idxTag i l).map Prod.fst = List.range' i l.length
  | _, [] => rfl
  | i, _ :: as => by simp [idxTag, map_fst_idxTag (i + 1) as, List.range']

theorem snd_mem_of_mem_idxTag {e : Nat × α} : ∀ {i : Nat} {l : List α},
    e ∈ idxTag i l → e.2 ∈ l := by
  intro i l
  induction l generalizing i with
  | nil => intro h; cases h
  | cons a as ih =>
    intro h
    simp only [idxTag, List.mem_cons] at h
    rcases h with rfl | h
    · exact List.mem_cons_self a as
    · exact List.mem_cons_of_mem a (ih h)

theorem pairwise_idxTag {R : List Label → List Label → Prop}
    (i : Nat) (l : List (List Label)) (h : l.Pairwise R) :
    (idxTag i l).Pairwise (fun a b => R a.2 b.2) := by
  induction l generalizing i with
  | nil => exact List.Pairwise.nil
  | cons a as ih =>
    rcases List.pairwise_cons.mp h with ⟨h₁, h₂⟩
    refine List.pairwise_cons.mpr ⟨?_, ih (i + 1) h₂⟩
    intro e he
    exact h₁ e.2 (snd_mem_of_mem_idxTag he)

theorem idxTag_map_getD (d : β) (l : List α) (vs : List β) (i : Nat)
    (h : vs.length = i + l.length) :
    (idxTag i l).map (fun e => vs.getD e.1 d) = vs.drop i := by
  induction l generalizing i with
  | nil =>
    simp only [List.length_nil, Nat.add_zero] at h
    simp [idxTag, List.drop_eq_nil_of_le (le_of_eq h)]
  | cons a as ih =>
    simp only [List.length_cons] at h
    have hi : i < vs.length := by omega
    have hrec := ih (i + 1) (by omega)
    simp only [idxTag, List.map_cons, hrec]
    rw [List.getD_eq_getElem vs d hi, List.drop_eq_getElem_cons hi]

theorem idxTag_map_pairZip (d : β) (f : α → γ) (l : List α) (vs : List β) (i : Nat)
    (h : vs.length = i + l.length) :
    (idxTag i l).map (fun e => (f e.2, vs.getD e.1 d)) = (l.map f).zip (vs.drop i) := by
  induction l generalizing i with
  | nil =>
    simp only [List.length_nil, Nat.add_zero] at h
    simp [idxTag, List.drop_eq_nil_of_le (le_of_eq h)]
  | cons a as ih =>
    simp only [List.length_cons] at h
    have hi : i < vs.length := by omega
    have hrec := ih (i + 1) (by omega)
    simp only [idxTag, List.map_cons, hrec]
    rw [List.getD_eq_getElem vs d hi, List.drop_eq_getElem_cons hi]
    rfl

theorem regroup_rows_ok (t : Table) (groups : List (Label × List Label))
    (lg name : String) (j : Nat)
    (hj : levelPos t.rows.names lg = some j)
    (hOk : partitionOk groups (levelValues t.rows.tuples j) = true) :
    regroup_levels t groups lg false name =
      .ok ⟨⟨name :: lg :: t.rows.names.eraseIdx j,
            (regroupTags groups j t.rows).map Prod.snd⟩,
           t.cols,
           (regroupTags groups j t.rows).map (fun e => t.values.getD e.1 [])⟩ := by
  have ha : axisIndex t false = t.rows := rfl
  simp only [regroup_levels, ha, hj, hOk, if_true, Bool.false_eq_true, if_false]

theorem regroup_cols_ok (t : Table) (groups : List (Label × List Label))
    (lg name : String) (j : Nat)
    (hj : levelPos t.cols.names lg = some j)
    (hOk : partitionOk groups (levelValues t.cols.tuples j) = true) :
    regroup_levels t groups lg true name =
      .ok ⟨t.rows,
           ⟨name :: lg :: t.cols.names.eraseIdx j,
            (regroupTags groups j t.cols).map Prod.snd⟩,
           t.values.map (fun row =>
             (regroupTags groups j t.cols).map (fun e => row.getD e.1 0))⟩ := by
  have ha : axisIndex t true = t.cols := rfl
  simp only [regroup_levels, ha, hj, hOk, if_true]

theorem regroup_partition_error (t : Table) (groups : List (Label × List Label))
    (lg name : String) (axis : Bool) (j : Nat)
    (hj : levelPos (axisIndex t axis).names lg = some j)
    (hOk : partitionOk groups (levelValues (axisIndex t axis).tuples j) = false) :
    regroup_levels t groups lg axis name = .error .PartitionError := by
  simp only [regroup_levels, hj, hOk, if_false, Bool.false_eq_true]

theorem regroup_ok_partitionOk {t : Table} {groups : List (Label × List Label)}
    {lg name : String} {axis : Bool} {j : Nat} {u : Table}
    (hj : levelPos (axisIndex t axis).names lg = some j)
    (h : regroup_levels t groups lg axis name = .ok u) :
    partitionOk groups (levelValues (axisIndex t axis).tuples j) = true := by
  by_contra hno
  rw [regroup_partition_error t groups lg name axis j hj
    (Bool.eq_false_iff.mpr hno)] at h
  exact Except.noConfusion h

theorem regroup_rows_ok_inv {t : Table} {groups : List (Label × List Label)}
    {lg name : String} {j : Nat} {u : Table}
    (hj : levelPos t.rows.names lg = some j)
    (h : regroup_levels t groups lg false name = .ok u) :
    u = ⟨⟨name :: lg :: t.rows.names.eraseIdx j,
          (regroupTags groups j t.rows).map Prod.snd⟩,
         t.cols,
         (regroupTags groups j t.rows).map (fun e => t.values.getD e.1 [])⟩ := by
  have hOk := @regroup_ok_partitionOk t groups lg name false j u hj h
  rw [regroup_rows_ok t groups lg name j hj hOk] at h
  exact (Except.ok.injEq _ _).mp h.symm

theorem regroup_cols_ok_inv {t : Table} {groups : List (Label × List Label)}
    {lg name : String} {j : Nat} {u : Table}
    (hj : levelPos t.cols.names lg = some j)
    (h : regroup_levels t groups lg true name = .ok u) :
    u = ⟨t.rows,
         ⟨name :: lg :: t.cols.names.eraseIdx j,
          (regroupTags groups j t.cols).map Prod.snd⟩,
         t.values.map (fun row =>
           (regroupTags groups j t.cols).map (fun e => row.getD e.1 0))⟩ := by
  have hOk := @regroup_ok_partitionOk t groups lg name true j u hj h
  rw [regroup_cols_ok t groups lg name j hj hOk] at h
  exact (Except.ok.injEq _ _).mp h.symm

theorem regroupTags_tuples_perm (groups : List (Label × List Label)) (j : Nat)
    (idx : MIndex) :
    ((regroupTags groups j idx).map Prod.snd).Perm
      (idx.tuples.map (relabelTuple groups j)) := by
  have hp := (sortTagged_perm (idxTag 0 (idx.tuples.map (relabelTuple groups j)))).map
    Prod.snd
  rwa [map_snd_idxTag] at hp

theorem regroupTags_tuples_sorted (groups : List (Label × List Label)) (j : Nat)
    (idx : MIndex) :
    ((regroupTags groups j idx).map Prod.snd).Pairwise lexRel := by
  have hs := sortTagged_sorted (idxTag 0 (idx.tuples.map (relabelTuple groups j)))
  exact hs.map Prod.snd (fun _ _ hab => hab)

theorem pairwise_ble_getD_mono {m : List Label} (h : m.Pairwise bleRel)
    {i k : Nat} (hik : i ≤ k) (hk : k < m.length) :
    (m.getD i dLab).ble (m.getD k dLab) = true := by
  have hi : i < m.length := lt_of_le_of_lt hik hk
  rcases lt_or_eq_of_le hik with hlt | he
  · have hab : (⟨i, hi⟩ : Fin m.length) < ⟨k, hk⟩ := hlt
    have := List.Sorted.rel_get_of_lt h hab
    rwa [List.getD_eq_getElem m dLab hi, List.getD_eq_getElem m dLab hk]
  · subst he
    exact ble_refl _

theorem pairwise_ble_between_eq {m : List Label} (h : m.Pairwise bleRel)
    {i k l : Nat} (hik : i ≤ k) (hkl : k ≤ l) (hl : l < m.length)
    (he : m.getD i dLab = m.getD l dLab) :
    m.getD k dLab = m.getD i dLab := by
  have hk : k < m.length := lt_of_le_of_lt hkl hl
  have h₁ := pairwise_ble_getD_mono h hik hk
  have h₂ := pairwise_ble_getD_mono h hkl hl
  rw [← he] at h₂
  exact ble_antisymm h₂ h₁

theorem pairwise_head_of_lexRel {l : List (List Label)} (h : l.Pairwise lexRel)
    (hne : ∀ u ∈ l, u ≠ []) :
    (l.map (fun u => u.headD dLab)).Pairwise bleRel := by
  refine List.pairwise_map.mpr (h.imp_of_mem ?_)
  intro u v hu hv huv
  match u, hne u hu, v, hne v hv with
  | a :: as, _, b :: bs, _ => exact lexLe_head huv

theorem dupTuple_cons (a b : Label) (r : List Label) :
    dupTuple (a :: b :: r) = a :: b :: a :: r := rfl

theorem lexLe_dup (a b a' b' : Label) (r₁ r₂ : List Label) :
    lexLe (a :: b :: a :: r₁) (a' :: b' :: a' :: r₂) =
      lexLe (a :: b :: r₁) (a' :: b' :: r₂) := by
  by_cases haa : a = a'
  · subst haa
    by_cases hbb : b = b'
    · subst hbb
      simp [lexLe]
    · simp [lexLe, hbb]
  · simp [lexLe, haa]

theorem relabel_relabel (groups : List (Label × List Label)) (j : Nat)
    (u : List Label) :
    relabelTuple groups 1 (relabelTuple groups j u) =
      dupTuple (relabelTuple groups j u) := rfl

theorem relabel_shape (groups : List (Label × List Label)) (j : Nat)
    (u : List Label) :
    relabelTuple groups j u =
      groupOf groups (u.getD j dLab) :: u.getD j dLab :: u.eraseIdx j := rfl

theorem pairwise_lexRel_map_dup {l : List (List Label)} (h : l.Pairwise lexRel)
    (hsh : ∀ x ∈ l, ∃ a b r, x = a :: b :: r) :
    (l.map dupTuple).Pairwise lexRel := by
  refine List.pairwise_map.mpr (h.imp_of_mem ?_)
  intro u v hu hv huv
  rcases hsh u hu with ⟨a, b, r₁, rfl⟩
  rcases hsh v hv with ⟨a', b', r₂, rfl⟩
  rw [dupTuple_cons, dupTuple_cons]
  unfold lexRel at huv ⊢
  rw [lexLe_dup]
  exact huv

theorem decNat_enc (n : Nat) (r : List Nat) : decNat (encNat n ++ r) = some (n, r) := rfl

theorem decInt_enc (i : Int) (r : List Nat) : decInt (encInt i ++ r) = some (i, r) := by
  cases i <;> rfl

theorem decListAux_enc {enc : α → List Nat} {dec : List Nat → Option (α × List Nat)}
    (hre : ∀ a r, dec (enc a ++ r) = some (a, r)) :
    ∀ (l : List α) (r : List Nat),
      decListAux dec l.length (l.flatMap enc ++ r) = some (l, r)
  | [], _ => rfl
  | a :: as, r => by
    have hassoc : (a :: as).flatMap enc ++ r = enc a ++ (as.flatMap enc ++ r) := by
      simp [List.flatMap_cons, List.append_assoc]
    simp only [List.length_cons, decListAux, hassoc, hre, decListAux_enc hre as r]

theorem decList_enc {enc : α → List Nat} {dec : List Nat → Option (α × List Nat)}
    (hre : ∀ a r, dec (enc a ++ r) = some (a, r)) (l : List α) (r : List Nat) :
    decList dec (encList enc l ++ r) = some (l, r) := by
  have hcons : encList enc l ++ r = l.length :: (l.flatMap enc ++ r) := by
    simp [encList]
  simp only [decList, hcons, decNat, decListAux_enc hre l r]

theorem decStr_enc (s : String) (r : List Nat) : decStr (encStr s ++ r) = some (s, r) := by
  have hmap : (codes s).map Char.ofNat = s.data := by
    rw [codes, List.map_map]
    have hpt : s.data.map (Char.ofNat ∘ Char.toNat) = s.data.map id :=
      List.map_congr_left (fun c _ => Char.ofNat_toNat c)
    rw [hpt, List.map_id]
  simp only [decStr, encStr, decList_enc decNat_enc, hmap]

theorem decLabel_enc (v : Label) (r : List Nat) :
    decLabel (encLabel v ++ r) = some (v, r) := by
  cases v with
  | str s => simp [encLabel, decLabel, decStr_enc]
  | num n => rfl

theorem decMIndex_enc (m : MIndex) (r : List Nat) :
    decMIndex (encMIndex m ++ r) = some (m, r) := by
  have hassoc : encMIndex m ++ r =
      encList encStr m.names ++ (encList (encList encLabel) m.tuples ++ r) := by
    simp [encMIndex, List.append_assoc]
  simp only [decMIndex, hassoc, decList_enc decStr_enc,
    decList_enc (decList_enc decLabel_enc)]

theorem decGrid_enc (g : List (List Int)) (r : List Nat) :
    decGrid (encGrid g ++ r) = some (g, r) :=
  decList_enc (decList_enc decInt_enc) g r

theorem decTable_enc (t : Table) (r : List Nat) :
    decTable (encTable t ++ r) = some (t, r) := by
  have hassoc : encTable t ++ r =
      encMIndex t.rows ++ (encMIndex t.cols ++ (encGrid t.values ++ r)) := by
    simp [encTable, List.append_assoc]
  simp only [decTable, hassoc, decMIndex_enc, decGrid_enc]

theorem decPValue_enc (v : PValue) (r : List Nat) :
    decPValue (encPValue v ++ r) = some (v, r) := by
  cases v with
  | scalar i => simp [encPValue, decPValue, decInt_enc]
  | labels ls => simp [encPValue, decPValue, decList_enc decLabel_enc]
  | grid g => simp [encPValue, decPValue, decGrid_enc]
  | table t => simp [encPValue, decPValue, decTable_enc]

theorem range_map_getD {n : Nat} (f : Nat → β) (d : β) {k : Nat} (hk : k < n) :
    ((List.range n).map f).getD k d = f k := by
  have hlen : k < ((List.range n).map f).length := by simpa using hk
  rw [List.getD_eq_getElem _ d hlen, List.getElem_map]
  exact congrArg f (List.getElem_range k _)

theorem getD_map_getD (f : List Label → β) (d : β) {l : List (List Label)} {k : Nat}
    (hk : k < l.length) : (l.map f).getD k d = f (l.getD k []) := by
  have hlen : k < (l.map f).length := by simpa using hk
  rw [List.getD_eq_getElem _ d hlen, List.getElem_map, List.getD_eq_getElem _ _ hk]

theorem getD_map_nat (f : List Nat → β) (d : β) {l : List (List Nat)} {k : Nat}
    (hk : k < l.length) : (l.map f).getD k d = f (l.getD k []) := by
  have hlen : k < (l.map f).length := by simpa using hk
  rw [List.getD_eq_getElem _ d hlen, List.getElem_map, List.getD_eq_getElem _ _ hk]

theorem map_length_eq_of_zip : ∀ {pls : List (List Label)} {ns : List Nat},
    pls.length = ns.length → (∀ p ∈ pls.zip ns, p.1.length = p.2) →
      pls.map List.length = ns
  | [], [], _, _ => rfl
  | [], _ :: _, h, _ => by simp at h
  | _ :: _, [], h, _ => by simp at h
  | l :: ls, n :: ns, h, hz => by
    have h₁ : l.length = n := hz (l, n) (by simp [List.zip_cons_cons])
    have h₂ : ls.map List.length = ns :=
      map_length_eq_of_zip (by simpa using h)
        (fun p hp => hz p (by simp [List.zip_cons_cons, hp]))
    simp [h₁, h₂]

theorem range_getD {n k : Nat} (hk : k < n) : (List.range n).getD k 0 = k := by
  rw [List.getD_eq_getElem _ _ (by simpa using hk)]
  exact List.getElem_range k _

theorem cartProd_length : ∀ ls : List (List α),
    (cartProd ls).length = prodNat (ls.map List.length)
  | [] => rfl
  | l :: ls => by
    simp only [cartProd, List.length_flatMap, List.map_map, Function.comp_def]
    have hconst : (l.map fun x => ((cartProd ls).map (x :: ·)).length) =
        List.replicate l.length (cartProd ls).length := by
      rw [← List.map_const l (cartProd ls).length]
      exact List.map_congr_left (fun x _ => by simp)
    rw [hconst, List.sum_replicate, smul_eq_mul, cartProd_length ls]
    rfl

theorem cartRange_length (ns : List Nat) : (cartRange ns).length = prodNat ns := by
  rw [cartRange, cartProd_length, List.map_map]
  have : ns.map (List.length ∘ List.range) = ns :=
    List.map_congr_left (fun n _ => by simp) |>.trans (List.map_id ns)
  rw [this]

theorem flatMap_getD_uniform (f : Nat → List β) (d : β) {P : Nat} :
    ∀ (l : List Nat) (k : Nat), (∀ x ∈ l, (f x).length = P) → k < l.length * P →
      (l.flatMap f).getD k d = (f (l.getD (k / P) 0)).getD (k % P) d := by
  intro l
  induction l with
  | nil => intro k _ hk; simp at hk
  | cons a as ih =>
    intro k hlen hk
    have hP : 0 < P := by
      rcases Nat.eq_zero_or_pos P with h0 | h0
      · rw [h0, Nat.mul_zero] at hk; exact absurd hk (Nat.not_lt_zero k)
      · exact h0
    have hfa : (f a).length = P := hlen a (List.mem_cons_self a as)
    rw [List.flatMap_cons]
    by_cases hkP : k < P
    · rw [List.getD_append _ _ d k (by rw [hfa]; exact hkP),
        Nat.div_eq_of_lt hkP, Nat.mod_eq_of_lt hkP]
      rfl
    · push_neg at hkP
      rw [List.getD_append_right _ _ d k (by rw [hfa]; exact hkP), hfa]
      have hsm : (as.length + 1) * P = as.length * P + P := Nat.succ_mul _ _
      have hrec := ih (k - P) (fun x hx => hlen x (List.mem_cons_of_mem a hx))
        (by simp only [List.length_cons] at hk; omega)
      rw [hrec]
      have hdiv : k / P = (k - P) / P + 1 := Nat.div_eq_sub_div hP hkP
      have hmod : k % P = (k - P) % P := Nat.mod_eq_sub_mod hkP
      rw [hdiv, hmod]
      rfl

theorem cartRange_getD : ∀ (ns : List Nat) (k : Nat), k < prodNat ns →
    (cartRange ns).getD k [] = unflatten ns k
  | [], k, hk => by
    have : k = 0 := Nat.lt_one_iff.mp hk
    subst this
    rfl
  | n :: ns, k, hk => by
    have hP : (cartRange ns).length = prodNat ns := cartRange_length ns
    have hchunk : ∀ x ∈ List.range n, ((cartRange ns).map (x :: ·)).length = prodNat ns := by
      intro x _
      simp [hP]
    have hflat : cartRange (n :: ns) =
        (List.range n).flatMap (fun i => (cartRange ns).map (i :: ·)) := by
      simp [cartRange, cartProd]
    have hk' : k < (List.range n).length * prodNat ns := by simpa using hk
    rw [hflat, flatMap_getD_uniform _ _ _ k hchunk hk']
    have hPpos : 0 < prodNat ns := by
      rcases Nat.eq_zero_or_pos (prodNat ns) with h0 | h0
      · rw [prodNat, h0, Nat.mul_zero] at hk
        exact absurd hk (Nat.not_lt_zero k)
      · exact h0
    have hdivlt : k / prodNat ns < n := Nat.div_lt_of_lt_mul (by rw [Nat.mul_comm]; exact hk)
    have hmodlt : k % prodNat ns < prodNat ns := Nat.mod_lt k hPpos
    rw [range_getD hdivlt,
      getD_map_nat ((k / prodNat ns) :: ·) [] (by rw [hP]; exact hmodlt),
      cartRange_getD ns (k % prodNat ns) hmodlt]
    rfl

theorem cartProd_eq_map_selectLabels : ∀ pls : List (List Label),
    cartProd pls = (cartRange (pls.map List.length)).map (selectLabels pls)
  | [] => rfl
  | l :: ls => by
    have hrange : (List.range l.length).map (fun i => l.getD i dLab) = l := by
      clear cartProd_eq_map_selectLabels
      induction l with
      | nil => rfl
      | cons a as ih =>
        rw [List.length_cons, List.range_succ_eq_map, List.map_cons, List.map_map]
        have : (List.range as.length).map ((fun i => (a :: as).getD i dLab) ∘ (· + 1)) =
            (List.range as.length).map (fun i => as.getD i dLab) :=
          List.map_congr_left (fun i _ => rfl)
        rw [this, ih]
        rfl
    have hstep : cartRange ((l :: ls).map List.length) =
        (List.range l.length).flatMap
          (fun i => (cartRange (ls.map List.length)).map (i :: ·)) := by
      simp [cartRange, cartProd]
    rw [hstep]
    have hmapmap : ∀ i : Nat,
        ((cartRange (ls.map List.length)).map (i :: ·)).map (selectLabels (l :: ls)) =
          (cartProd ls).map ((l.getD i dLab) :: ·) := by
      intro i
      rw [List.map_map, cartProd_eq_map_selectLabels ls, List.map_map]
      exact List.map_congr_left (fun is _ => rfl)
    rw [List.map_flatMap]
    have : (List.range l.length).map
          (fun i => ((cartRange (ls.map List.length)).map (i :: ·)).map
            (selectLabels (l :: ls))) =
        (List.range l.length).map (fun i => (cartProd ls).map ((l.getD i dLab) :: ·)) :=
      List.map_congr_left (fun i _ => hmapmap i)
    rw [show ((List.range l.length).flatMap fun i =>
          ((cartRange (ls.map List.length)).map (i :: ·)).map (selectLabels (l :: ls))) =
        (List.range l.length).flatMap
          (fun i => (cartProd ls).map ((l.getD i dLab) :: ·)) from by
      rw [List.flatMap_def, List.flatMap_def, this]]
    conv_lhs => rw [cartProd, ← hrange, List.flatMap_map]

theorem df_blocks_getD :
    ∀ (blocks : List (List (List Int))) (labels : List (List Label)),
      labels.length = blocks.length →
      ∀ bi, bi < blocks.length → ∀ i, i < (blocks.getD bi []).length →
        ((blocks.zip labels).flatMap
            (fun p => (List.range p.1.length).map (fun s => p.2 ++ [Label.num s]))).getD
          (blockOffset blocks bi + i) []
          = labels.getD bi [] ++ [Label.num i]
        ∧ (blocks.flatMap id).getD (blockOffset blocks bi + i) []
          = (blocks.getD bi []).getD i [] := by
  intro blocks
  induction blocks with
  | nil => intro labels _ bi hbi; exact absurd hbi (by simp)
  | cons b bs ih =>
    intro labels h1 bi hbi i hi
    cases labels with
    | nil => simp at h1
    | cons lab labs =>
      have h1' : labs.length = bs.length := by simpa using h1
      cases bi with
      | zero =>
        have hoff : blockOffset (b :: bs) 0 = 0 := rfl
        have hib : i < b.length := hi
        constructor
        · rw [hoff, Nat.zero_add, List.zip_cons_cons, List.flatMap_cons,
            List.getD_append _ _ [] i (by simpa using hib)]
          exact range_map_getD _ [] hib
        · rw [hoff, Nat.zero_add, List.flatMap_cons,
            List.getD_append _ _ [] i (by simpa using hib)]
          rfl
      | succ bi' =>
        have hoff : blockOffset (b :: bs) (bi' + 1) = b.length + blockOffset bs bi' := by
          simp [blockOffset, List.take_succ_cons]
        have hbi' : bi' < bs.length := by simpa using hbi
        have hi' : i < (bs.getD bi' []).length := hi
        have hrec := ih labs h1' bi' hbi' i hi'
        constructor
        · rw [hoff, Nat.add_assoc, List.zip_cons_cons, List.flatMap_cons,
            List.getD_append_right _ _ [] _ (by simp), List.length_map,
            List.length_range, Nat.add_sub_cancel_left]
          exact hrec.1
        · rw [hoff, Nat.add_assoc, List.flatMap_cons,
            List.getD_append_right _ _ [] _ (by simp [id]),
            show (id b).length = b.length from rfl, Nat.add_sub_cancel_left]
          exact hrec.2

theorem load_after_save (v : PValue) (path : String) (st : Store) :
    load_object path (save_object v path st) = .ok v := by
  have hdec : decPValue (encPValue v) = some (v, []) := by
    have := decPValue_enc v []
    rwa [List.append_nil] at this
  simp only [load_object, save_object, lookupStore, if_pos rfl, if_true,
    eq_self_iff_true, hdec]

theorem sortStrings_sorted (l : List String) :
    (List.insertionSort strRel l).Sorted strRel :=
  @List.sorted_insertionSort _ strRel _ strRel_isTotal strRel_isTrans l

theorem sortStrings_perm (l : List String) :
    (List.insertionSort strRel l).Perm l :=
  List.perm_insertionSort strRel l

theorem idxTag_length : ∀ (i : Nat) (l : List α), (idxTag i l).length = l.length
  | _, [] => rfl
  | i, _ :: as => by simp [idxTag, idxTag_length (i + 1) as]

theorem regroupTags_length (groups : List (Label × List Label)) (j : Nat)
    (idx : MIndex) : (regroupTags groups j idx).length = idx.tuples.length := by
  rw [regroupTags, sortTagged, List.length_insertionSort, idxTag_length,
    List.length_map]

theorem relabel_mem_shape {groups : List (Label × List Label)} {j : Nat}
    {idx : MIndex} {x : List Label}
    (hx : x ∈ (regroupTags groups j idx).map Prod.snd) :
    ∃ u, x = relabelTuple groups j u := by
  have hperm := regroupTags_tuples_perm groups j idx
  rcases List.mem_map.mp (hperm.mem_iff.mp hx) with ⟨u, _, hu⟩
  exact ⟨u, hu.symm⟩

theorem regroup_core_contig (groups : List (Label × List Label)) (j : Nat)
    (idx : MIndex) {i k l : Nat} (hik : i ≤ k) (hkl : k ≤ l)
    (hl : l < ((regroupTags groups j idx).map Prod.snd).length)
    (he : (((regroupTags groups j idx).map Prod.snd).getD i []).headD dLab =
      (((regroupTags groups j idx).map Prod.snd).getD l []).headD dLab) :
    (((regroupTags groups j idx).map Prod.snd).getD k []).headD dLab =
      (((regroupTags groups j idx).map Prod.snd).getD i []).headD dLab := by
  have hsor := regroupTags_tuples_sorted groups j idx
  have hne : ∀ x ∈ (regroupTags groups j idx).map Prod.snd, x ≠ [] := by
    intro x hx
    rcases relabel_mem_shape hx with ⟨u, rfl⟩
    exact List.cons_ne_nil _ _
  have hheads := pairwise_head_of_lexRel hsor hne
  have hi : i < ((regroupTags groups j idx).map Prod.snd).length :=
    lt_of_le_of_lt (le_trans hik hkl) hl
  have hk : k < ((regroupTags groups j idx).map Prod.snd).length :=
    lt_of_le_of_lt hkl hl
  have hmi := getD_map_getD (fun u => u.headD dLab) dLab hi
  have hmk := getD_map_getD (fun u => u.headD dLab) dLab hk
  have hml := getD_map_getD (fun u => u.headD dLab) dLab hl
  have hbetween := pairwise_ble_between_eq hheads hik hkl
    (by simpa using hl) (by rw [hmi, hml]; exact he)
  rw [hmi, hmk] at hbetween
  exact hbetween

theorem length_tuples_blocks :
    ∀ (blocks : List (List (List Int))) (labels : List (List Label)),
      labels.length = blocks.length →
      ((blocks.zip labels).flatMap
          (fun p => (List.range p.1.length).map (fun s => p.2 ++ [Label.num s]))).length
        = (blocks.map List.length).sum
  | [], _, _ => rfl
  | _ :: _, [], h => by simp at h
  | b :: bs, lab :: labs, h => by
    have h' : labs.length = bs.length := by simpa using h
    simp only [List.zip_cons_cons, List.flatMap_cons, List.length_append,
      List.length_map, List.length_range, List.map_cons, List.sum_cons]
    rw [length_tuples_blocks bs labs h']

theorem length_values_blocks (blocks : List (List (List Int))) :
    (blocks.flatMap id).length = (blocks.map List.length).sum := by
  rw [List.length_flatMap]
  rfl

/-- C1, counterexample: regrouping the inner level `P` of a (`T`, `P`)
index does not leave `T` outermost; the claimed level order
`[T, G, P]` (group inserted above `P`, outward levels keeping their
positions) is not what `regroup_levels` produces. -/
theorem C1_counterexample :
    regroup_levels tTP gTP "P" false "G" = .ok tTPout ∧
      tTPout.rows.names ≠ ["T", "G", "P"] :=
  ⟨rfl, by decide⟩

/-- C1 (amended): on success, `regroup_levels` moves the new group level
and the regrouped level to the two outermost positions of the chosen axis
(group level immediately above the regrouped level), and the remaining
levels follow inward in their original relative order; levels that were
outward of the regrouped level do not keep their positions. -/
theorem C1_regroup_moves_group_level_outermost
    (t : Table) (groups : List (Label × List Label)) (lg name : String)
    (axis : Bool) (j : Nat) (u : Table)
    (hj : levelPos (axisIndex t axis).names lg = some j)
    (h : regroup_levels t groups lg axis name = .ok u) :
    (axisIndex u axis).names = name :: lg :: (axisIndex t axis).names.eraseIdx j := by
  cases axis
  · have hu := regroup_rows_ok_inv hj h
    rw [hu]
    rfl
  · have hu := regroup_cols_ok_inv hj h
    rw [hu]
    rfl

/-- C1, witness: the amended statement at the concrete two-level table. -/
theorem C1_witness :
    (axisIndex tTPout false).names =
      "G" :: "P" :: (axisIndex tTP false).names.eraseIdx 1 :=
  C1_regroup_moves_group_level_outermost tTP gTP "P" "G" false 1 tTPout rfl rfl

/-- C2, counterexample: with the partition mapping iterating `b` before
`a`, the claim predicts the group block of `b` first and each entry in
original order, i.e. tuples `[[b, p1], [a, p2]]`; `regroup_levels`
instead sorts the groups by label and returns `[[a, p2], [b, p1]]`. -/
theorem C2_counterexample :
    regroup_levels tP gBA "P" false "G" = .ok tPout ∧
      tPout.rows.tuples ≠
        [[Label.str "b", Label.str "p1"], [Label.str "a", Label.str "p2"]] :=
  ⟨rfl, by decide⟩

/-- C2 (amended): on success the axis entries sharing a group label are
contiguous, but the groups appear in ascending lexicographic order of
their labels — not in the iteration order of the partition mapping — and
within each group the entries are sorted lexicographically by the
remaining levels rather than keeping their original relative order.  The
new tuples are exactly a permutation of the relabeled input tuples. -/
theorem C2_regroup_contiguous_sorted_groups
    (t : Table) (groups : List (Label × List Label)) (lg name : String)
    (axis : Bool) (j : Nat) (u : Table)
    (hj : levelPos (axisIndex t axis).names lg = some j)
    (h : regroup_levels t groups lg axis name = .ok u) :
    (axisIndex u axis).tuples.Pairwise lexRel
    ∧ ((axisIndex u axis).tuples).Perm
        ((axisIndex t axis).tuples.map (relabelTuple groups j))
    ∧ ∀ i k l : Nat, i ≤ k → k ≤ l → l < (axisIndex u axis).tuples.length →
        ((axisIndex u axis).tuples.getD i []).headD dLab =
          ((axisIndex u axis).tuples.getD l []).headD dLab →
        ((axisIndex u axis).tuples.getD k []).headD dLab =
          ((axisIndex u axis).tuples.getD i []).headD dLab := by
  cases axis
  · have hu := regroup_rows_ok_inv hj h
    rw [hu]
    exact ⟨regroupTags_tuples_sorted groups j t.rows,
      regroupTags_tuples_perm groups j t.rows,
      fun i k l hik hkl hl he => regroup_core_contig groups j t.rows hik hkl hl he⟩
  · have hu := regroup_cols_ok_inv hj h
    rw [hu]
    exact ⟨regroupTags_tuples_sorted groups j t.cols,
      regroupTags_tuples_perm groups j t.cols,
      fun i k l hik hkl hl he => regroup_core_contig groups j t.cols hik hkl hl he⟩

/-- C2, witness: the amended statement at the concrete four-row table,
with one concrete contiguity instance. -/
theorem C2_witness :
    tTP4out.rows.tuples.Pairwise lexRel
    ∧ tTP4out.rows.tuples.Perm (tTP4.rows.tuples.map (relabelTuple gTP 1))
    ∧ (tTP4out.rows.tuples.getD 1 []).headD dLab =
      (tTP4out.rows.tuples.getD 0 []).headD dLab := by
  have hc := C2_regroup_contiguous_sorted_groups tTP4 gTP "P" "G" false 1 tTP4out rfl rfl
  exact ⟨hc.1, hc.2.1, hc.2.2 0 1 3 (by omega) (by omega) (by decide) (by decide)⟩

/-- C9: after a row-axis regroup, the whole row index is sorted
lexicographically over the new level order — group level outermost, then
the regrouped level, then the remaining levels — so the order of rows
within a group follows the sorted label values of the other levels, not
the input's original row order. -/
theorem C9_regroup_rows_lexsorted
    (t : Table) (groups : List (Label × List Label)) (lg name : String)
    (j : Nat) (u : Table)
    (hj : levelPos t.rows.names lg = some j)
    (h : regroup_levels t groups lg false name = .ok u) :
    u.rows.names = name :: lg :: t.rows.names.eraseIdx j
    ∧ u.rows.tuples.Pairwise lexRel := by
  have hu := regroup_rows_ok_inv hj h
  rw [hu]
  exact ⟨rfl, regroupTags_tuples_sorted groups j t.rows⟩

/-- C9, witness: the sortedness statement at the concrete four-row
table (whose input rows are deliberately out of order). -/
theorem C9_witness :
    tTP4out.rows.names = "G" :: "P" :: tTP4.rows.names.eraseIdx 1
    ∧ tTP4out.rows.tuples.Pairwise lexRel :=
  C9_regroup_rows_lexsorted tTP4 gTP "P" "G" 1 tTP4out rfl rfl

/-- C7: with a valid level name, `regroup_levels` fails with
`PartitionError` exactly when some distinct value of the target level is
covered by no partition set or by more than one, and succeeds exactly
when every distinct value is covered exactly once. -/
theorem C7_regroup_partition_errors
    (t : Table) (groups : List (Label × List Label)) (lg name : String)
    (axis : Bool) (j : Nat)
    (hj : levelPos (axisIndex t axis).names lg = some j) :
    ((regroup_levels t groups lg axis name = .error .PartitionError) ↔
      ¬ ∀ v ∈ levelValues (axisIndex t axis).tuples j, groupCount groups v = 1)
    ∧ (isOkE (regroup_levels t groups lg axis name) = true ↔
      ∀ v ∈ levelValues (axisIndex t axis).tuples j, groupCount groups v = 1) := by
  have hiff : partitionOk groups (levelValues (axisIndex t axis).tuples j) = true ↔
      ∀ v ∈ levelValues (axisIndex t axis).tuples j, groupCount groups v = 1 := by
    simp [partitionOk, List.all_eq_true, beq_iff_eq]
  by_cases hOk : partitionOk groups (levelValues (axisIndex t axis).tuples j) = true
  · have hok2 : isOkE (regroup_levels t groups lg axis name) = true := by
      cases axis
      · rw [regroup_rows_ok t groups lg name j hj hOk]; rfl
      · rw [regroup_cols_ok t groups lg name j hj hOk]; rfl
    constructor
    · constructor
      · intro herr
        rw [herr] at hok2
        exact absurd hok2 (by simp [isOkE])
      · intro hno
        exact absurd (hiff.mp hOk) hno
    · exact ⟨fun _ => hiff.mp hOk, fun _ => hok2⟩
  · have herr := regroup_partition_error t groups lg name axis j hj
      (Bool.eq_false_iff.mpr hOk)
    constructor
    · exact ⟨fun _ hf => hOk (hiff.mpr hf), fun _ => herr⟩
    · constructor
      · intro hisok
        rw [herr] at hisok
        exact absurd hisok (by simp [isOkE])
      · intro hf
        exact absurd (hiff.mpr hf) hOk

/-- C7, witness: a partition omitting the value `p2` errors, a partition
assigning `p2` to two groups errors, and the total disjoint partition
succeeds. -/
theorem C7_witness :
    regroup_levels tP gOmit "P" false "G" = .error .PartitionError
    ∧ regroup_levels tP gDup "P" false "G" = .error .PartitionError
    ∧ isOkE (regroup_levels tP gP "P" false "G") = true :=
  ⟨(C7_regroup_partition_errors tP gOmit "P" "G" false 0 rfl).1.mpr (by decide),
   (C7_regroup_partition_errors tP gDup "P" "G" false 0 rfl).1.mpr (by decide),
   (C7_regroup_partition_errors tP gP "P" "G" false 0 rfl).2.mpr (by decide)⟩

/-- C5: loading after saving returns the saved object unchanged, for
every object built of the Table's constituent types, every path, and
every prior store contents. -/
theorem C5_persistence_roundtrip (v : PValue) (path : String) (st : Store) :
    load_object path (save_object v path st) = .ok v :=
  load_after_save v path st

/-- C6: the Discovery operation keeps exactly the entries satisfying the
predicate, sorts them lexicographically, and indexes them densely from
0; it is a pure function of the directory snapshot and the predicate, so
two calls on an unchanged directory agree. -/
theorem C6_discovery_sorted_dense (entries : List String) (pred : String → Bool) :
    (list_available entries pred).map Prod.fst =
      List.range (entries.filter pred).length
    ∧ ((list_available entries pred).map Prod.snd).Pairwise strRel
    ∧ ((list_available entries pred).map Prod.snd).Perm (entries.filter pred) := by
  refine ⟨?_, ?_, ?_⟩
  · rw [list_available, map_fst_idxTag, List.length_insertionSort,
      List.range_eq_range']
  · rw [list_available, map_snd_idxTag]
    exact sortStrings_sorted _
  · rw [list_available, map_snd_idxTag]
    exact sortStrings_perm _

/-- C10: a row-axis regroup preserves the association between labels and
values — pairing each output row's labels (with the inserted group level
dropped) with its value row gives exactly a permutation of the input's
rows paired the same way (so no value is added, dropped or duplicated,
and each original label combination keeps its value row) — and leaves
the column index unchanged. -/
theorem C10_regroup_preserves_values
    (t : Table) (groups : List (Label × List Label)) (lg name : String)
    (j : Nat) (u : Table)
    (hj : levelPos t.rows.names lg = some j)
    (hlen : t.values.length = t.rows.tuples.length)
    (h : regroup_levels t groups lg false name = .ok u) :
    ((u.rows.tuples.map List.tail).zip u.values).Perm
        ((t.rows.tuples.map (moveFront j)).zip t.values)
    ∧ u.cols = t.cols ∧ u.values.length = t.values.length := by
  have hu := regroup_rows_ok_inv hj h
  subst hu
  refine ⟨?_, rfl, ?_⟩
  · have h1 : ((regroupTags groups j t.rows).map Prod.snd).map List.tail =
        (regroupTags groups j t.rows).map (fun e => e.2.tail) := by
      rw [List.map_map]
      rfl
    show (_ : List _).Perm _
    rw [h1, List.zip_map']
    have hperm := (sortTagged_perm
        (idxTag 0 (t.rows.tuples.map (relabelTuple groups j)))).map
      (fun e => (e.2.tail, t.values.getD e.1 []))
    have heq := idxTag_map_pairZip ([] : List Int) List.tail
      (t.rows.tuples.map (relabelTuple groups j)) t.values 0
      (by rw [List.length_map]; simpa using hlen)
    rw [List.drop_zero] at heq
    have h4 : (t.rows.tuples.map (relabelTuple groups j)).map List.tail =
        t.rows.tuples.map (moveFront j) := by
      rw [List.map_map]
      exact List.map_congr_left (fun v _ => rfl)
    simp only [regroupTags]
    rw [← h4, ← heq]
    exact hperm
  · show ((regroupTags groups j t.rows).map _).length = t.values.length
    rw [List.length_map, regroupTags_length]
    exact hlen.symm

/-- C10, witness: the value-preservation statement at the concrete
four-row table. -/
theorem C10_witness :
    ((tTP4out.rows.tuples.map List.tail).zip tTP4out.values).Perm
        ((tTP4.rows.tuples.map (moveFront 1)).zip tTP4.values)
    ∧ tTP4out.cols = tTP4.cols ∧ tTP4out.values.length = tTP4.values.length :=
  C10_regroup_preserves_values tTP4 gTP "P" "G" 1 tTP4out rfl rfl rfl

/-- C4: `df_from_blocks` concatenates the blocks' rows in input order
with no sorting: the table's row count is the total number of block
rows, and the row at offset(block) + i carries that block's condition
tuple, a Sample counter restarting at 0 for every block, and that
block's i-th value row; the columns are the given observables. -/
theorem C4_df_from_blocks_concat
    (blocks : List (List (List Int))) (labels : List (List Label))
    (obsl : List Label) (an : List String) (u : Table)
    (h1 : labels.length = blocks.length)
    (h2 : ∀ b ∈ blocks, ∀ row ∈ b, row.length = obsl.length)
    (hok : df_from_blocks blocks labels obsl an = .ok u) :
    u.rows.names = an ++ ["Sample"]
    ∧ u.cols.tuples = obsl.map ([·])
    ∧ u.rows.tuples.length = (blocks.map List.length).sum
    ∧ u.values.length = (blocks.map List.length).sum
    ∧ ∀ bi, bi < blocks.length → ∀ i, i < (blocks.getD bi []).length →
        u.rows.tuples.getD (blockOffset blocks bi + i) [] =
          labels.getD bi [] ++ [Label.num i]
        ∧ u.values.getD (blockOffset blocks bi + i) [] =
          (blocks.getD bi []).getD i [] := by
  rw [df_from_blocks, if_pos ⟨h1, h2⟩] at hok
  have hu := (Except.ok.injEq _ _).mp hok.symm
  subst hu
  refine ⟨rfl, rfl, length_tuples_blocks blocks labels h1,
    length_values_blocks blocks, ?_⟩
  intro bi hbi i hi
  exact df_blocks_getD blocks labels h1 bi hbi i hi

/-- C4, witness: the concrete example of the claim — blocks
`[[[1,2]],[[3,4],[5,6]]]` with labels `c1`, `c2` give exactly the rows
`(c1,0)->[1,2]`, `(c2,0)->[3,4]`, `(c2,1)->[5,6]`. -/
theorem C4_witness :
    df_from_blocks blocksEx labelsEx obsEx ["Condition"] = .ok tBlocksOut
    ∧ tBlocksOut.rows.names = ["Condition"] ++ ["Sample"]
    ∧ tBlocksOut.rows.tuples.length = 3
    ∧ tBlocksOut.rows.tuples.getD (blockOffset blocksEx 1 + 1) [] =
      labelsEx.getD 1 [] ++ [Label.num 1]
    ∧ tBlocksOut.values.getD (blockOffset blocksEx 1 + 1) [] =
      (blocksEx.getD 1 []).getD 1 []
    ∧ tBlocksOut.rows.tuples =
      [[Label.str "c1", Label.num 0], [Label.str "c2", Label.num 0],
       [Label.str "c2", Label.num 1]]
    ∧ tBlocksOut.values = [[1, 2], [3, 4], [5, 6]] := by
  have hc := C4_df_from_blocks_concat blocksEx labelsEx obsEx ["Condition"]
    tBlocksOut rfl (by decide) rfl
  have hinst := hc.2.2.2.2 1 (by decide) 1 (by decide)
  exact ⟨rfl, hc.1, hc.2.2.1.trans (by decide), hinst.1, hinst.2, rfl, rfl⟩

/-- C3: for matching label and axis extents, `df_from_ndarray` labels row
`k` with the `k`-th tuple of the Cartesian product of the per-axis label
lists (row-major, last non-observable axis fastest), and the value in
row `k`, column `c` is the array entry at the multi-index obtained by
inserting `c` at the observable position into the `k`-th row-major
multi-index. -/
theorem C3_df_from_ndarray_rowmajor
    (arr : NDArr) (pls : List (List Label)) (oa : Nat) (obsl : List Label)
    (an : List String) (u : Table)
    (h1 : oa < arr.shape.length)
    (h2 : pls.length = (arr.shape.eraseIdx oa).length)
    (h3 : ∀ p ∈ pls.zip (arr.shape.eraseIdx oa), p.1.length = p.2)
    (h4 : obsl.length = arr.shape.getD oa 0)
    (hok : df_from_ndarray arr pls oa obsl an = .ok u) :
    u.rows.tuples = cartProd pls
    ∧ u.rows.tuples.length = prodNat (arr.shape.eraseIdx oa)
    ∧ u.cols.tuples.length = obsl.length
    ∧ ∀ k, k < prodNat (arr.shape.eraseIdx oa) → ∀ c, c < obsl.length →
        u.rows.tuples.getD k [] =
          selectLabels pls ((cartRange (arr.shape.eraseIdx oa)).getD k [])
        ∧ (u.values.getD k []).getD c 0 =
          ndGet arr (List.insertIdx oa c ((cartRange (arr.shape.eraseIdx oa)).getD k [])) := by
  simp only [df_from_ndarray] at hok
  rw [if_pos ⟨h1, h2, h3, h4⟩] at hok
  have hu := (Except.ok.injEq _ _).mp hok.symm
  subst hu
  have hlens : pls.map List.length = arr.shape.eraseIdx oa := map_length_eq_of_zip h2 h3
  have hrowlen : (cartProd pls).length = prodNat (arr.shape.eraseIdx oa) := by
    rw [cartProd_length, hlens]
  refine ⟨rfl, hrowlen, by simp, ?_⟩
  intro k hk c hc
  constructor
  · show (cartProd pls).getD k [] = _
    rw [cartProd_eq_map_selectLabels pls, hlens,
      getD_map_nat (selectLabels pls) []
        (by rw [cartRange_length]; exact hk)]
  · show (((List.range (prodNat (arr.shape.eraseIdx oa))).map _).getD k []).getD c 0 = _
    rw [range_map_getD _ [] hk, range_map_getD _ 0 hc,
      cartRange_getD (arr.shape.eraseIdx oa) k hk]

/-- C3, witness: the spec's concrete (2,3,4) example — 6 rows, 4
columns, row `("a","x")` at position 0, and the value at that row,
column `o2`, equal to the array entry at multi-index `[0,0,1]`, which is
1. -/
theorem C3_witness :
    df_from_ndarray arr234 pls234 2 obs234 ["ax0", "ax1"] = .ok tNDOut
    ∧ tNDOut.rows.tuples.length = 6
    ∧ tNDOut.cols.tuples.length = 4
    ∧ tNDOut.rows.tuples.getD 0 [] = [Label.str "a", Label.str "x"]
    ∧ (tNDOut.values.getD 0 []).getD 1 0 = ndGet arr234 [0, 0, 1]
    ∧ ndGet arr234 [0, 0, 1] = 1 := by
  have hc := C3_df_from_ndarray_rowmajor arr234 pls234 2 obs234 ["ax0", "ax1"]
    tNDOut (by decide) (by decide) (by decide) (by decide) rfl
  have hinst := hc.2.2.2 0 (by decide) 1 (by decide)
  refine ⟨rfl, hc.2.1.trans (by decide), hc.2.2.1.trans (by decide),
    hinst.1.trans (by decide), hinst.2.trans ?_, by decide⟩
  show ndGet arr234 (List.insertIdx 2 1 ((cartRange (arr234.shape.eraseIdx 2)).getD 0 [])) =
    ndGet arr234 [0, 0, 1]
  rfl

/-- C8, counterexample: regrouping the level `P` of an already-regrouped
table again with the same partition does not return the once-regrouped
table — it inserts another copy of the group level. -/
theorem C8_counterexample :
    regroup_levels tP gP "P" false "G" = .ok tP1
    ∧ regroup_levels tP1 gP "P" false "G" = .ok tP2
    ∧ tP2 ≠ tP1 :=
  ⟨rfl, rfl, by decide⟩

/-- C8 (amended): regrouping the same level of an already-regrouped
table again with the same partition succeeds and preserves the values,
the entry order and the column index, but the regrouped axis gains a
second copy of the group level (each tuple repeats its group label)
instead of the result being identical to the once-regrouped table. -/
theorem C8_regroup_again_adds_level
    (t0 : Table) (groups : List (Label × List Label)) (lg name : String)
    (j : Nat) (t1 : Table)
    (hj : levelPos t0.rows.names lg = some j)
    (hne : name ≠ lg)
    (h1 : regroup_levels t0 groups lg false name = .ok t1) :
    regroup_levels t1 groups lg false name =
      .ok ⟨⟨name :: lg :: t1.rows.names.eraseIdx 1, t1.rows.tuples.map dupTuple⟩,
           t1.cols, t1.values⟩ := by
  have hOk0 := @regroup_ok_partitionOk t0 groups lg name false j t1 hj h1
  have hu := regroup_rows_ok_inv hj h1
  subst hu
  have hperm := regroupTags_tuples_perm groups j t0.rows
  have hshape : ∀ x ∈ (regroupTags groups j t0.rows).map Prod.snd,
      ∃ w, x = relabelTuple groups j w := fun x hx => relabel_mem_shape hx
  have hj1 : levelPos (name :: lg :: t0.rows.names.eraseIdx j) lg = some 1 := by
    simp [levelPos, hne]
  have hOk1 : partitionOk groups
      (levelValues ((regroupTags groups j t0.rows).map Prod.snd) 1) = true := by
    rw [partitionOk, List.all_eq_true]
    intro v hv
    have hv' : v ∈ ((regroupTags groups j t0.rows).map Prod.snd).map
        (fun u => u.getD 1 dLab) := List.mem_dedup.mp hv
    have hmaps : (t0.rows.tuples.map (relabelTuple groups j)).map
        (fun u => u.getD 1 dLab) = t0.rows.tuples.map (fun w => w.getD j dLab) := by
      rw [List.map_map]
      exact List.map_congr_left (fun w _ => rfl)
    have hv2 : v ∈ t0.rows.tuples.map (fun w => w.getD j dLab) := by
      rw [← hmaps]
      exact (hperm.map (fun u => u.getD 1 dLab)).mem_iff.mp hv'
    exact List.all_eq_true.mp hOk0 v (List.mem_dedup.mpr hv2)
  have hmapdup : ((regroupTags groups j t0.rows).map Prod.snd).map
      (relabelTuple groups 1) =
      ((regroupTags groups j t0.rows).map Prod.snd).map dupTuple :=
    List.map_congr_left (fun x hx => by
      rcases hshape x hx with ⟨w, rfl⟩
      exact relabel_relabel groups j w)
  have hdup_sorted : (((regroupTags groups j t0.rows).map Prod.snd).map
      dupTuple).Pairwise lexRel :=
    pairwise_lexRel_map_dup (regroupTags_tuples_sorted groups j t0.rows)
      (fun x hx => by
        rcases hshape x hx with ⟨w, rfl⟩
        exact ⟨_, _, _, rfl⟩)
  have hS' : regroupTags groups 1
      (⟨name :: lg :: t0.rows.names.eraseIdx j,
        (regroupTags groups j t0.rows).map Prod.snd⟩ : MIndex) =
      idxTag 0 (((regroupTags groups j t0.rows).map Prod.snd).map dupTuple) := by
    show sortTagged _ = _
    rw [show (⟨name :: lg :: t0.rows.names.eraseIdx j,
        (regroupTags groups j t0.rows).map Prod.snd⟩ : MIndex).tuples.map
          (relabelTuple groups 1) =
        ((regroupTags groups j t0.rows).map Prod.snd).map (relabelTuple groups 1)
      from rfl, hmapdup]
    exact sortTagged_eq_of_sorted (pairwise_idxTag 0 _ hdup_sorted)
  rw [regroup_rows_ok _ groups lg name 1 hj1 hOk1, hS', map_snd_idxTag]
  have hvals : (idxTag 0 (((regroupTags groups j t0.rows).map Prod.snd).map
        dupTuple)).map
      (fun e => ((regroupTags groups j t0.rows).map
        (fun e => t0.values.getD e.1 [])).getD e.1 []) =
      (regroupTags groups j t0.rows).map (fun e => t0.values.getD e.1 []) := by
    have hlen : ((regroupTags groups j t0.rows).map
        (fun e => t0.values.getD e.1 [])).length =
        0 + (((regroupTags groups j t0.rows).map Prod.snd).map dupTuple).length := by
      simp
    rw [idxTag_map_getD [] _ _ 0 hlen, List.drop_zero]
  rw [hvals]

/-- C8, witness: the amended statement at the concrete once-regrouped
table. -/
theorem C8_witness :
    regroup_levels tP1 gP "P" false "G" =
      .ok ⟨⟨"G" :: "P" :: tP1.rows.names.eraseIdx 1, tP1.rows.tuples.map dupTuple⟩,
           tP1.cols, tP1.values⟩ :=
  C8_regroup_again_adds_level tP gP "P" "G" 0 tP1 rfl (by decide) rfl

set_option maxRecDepth 10000

/-- Fidelity of the model to the repository: on the notebook's `df2`
inputs (a (4,5,6) array holding 0..119) and its `Effect` partition, the
modelled `regroup_levels` reproduces exactly the recorded
`regrouped_df2` output — level order (Effect, Pressure, Temperature),
groups in the order burst, crush, faint, fine (alphabetic, not the
dictionary's burst, fine, faint, crush), rows fully re-sorted, values
moved with their rows. -/
theorem model_matches_recorded_row_regroup :
    ∃ t u, df_from_ndarray arrNB [tempsNB, pressNB] 2 obsNB
        ["Temperature", "Pressure"] = .ok t
    ∧ regroup_levels t groupsNB "Pressure" false "Effect" = .ok u
    ∧ u.rows.names = ["Effect", "Pressure", "Temperature"]
    ∧ u.rows.tuples =
      [[Label.str "burst", Label.str "0 atm", Label.str "10 C"],
       [Label.str "burst", Label.str "0 atm", Label.str "20 C"],
       [Label.str "burst", Label.str "0 atm", Label.str "30 C"],
       [Label.str "burst", Label.str "0 atm", Label.str "40 C"],
       [Label.str "crush", Label.str "3 atm", Label.str "10 C"],
       [Label.str "crush", Label.str "3 atm", Label.str "20 C"],
       [Label.str "crush", Label.str "3 atm", Label.str "30 C"],
       [Label.str "crush", Label.str "3 atm", Label.str "40 C"],
       [Label.str "crush", Label.str "4 atm", Label.str "10 C"],
       [Label.str "crush", Label.str "4 atm", Label.str "20 C"],
       [Label.str "crush", Label.str "4 atm", Label.str "30 C"],
       [Label.str "crush", Label.str "4 atm", Label.str "40 C"],
       [Label.str "faint", Label.str "2 atm", Label.str "10 C"],
       [Label.str "faint", Label.str "2 atm", Label.str "20 C"],
       [Label.str "faint", Label.str "2 atm", Label.str "30 C"],
       [Label.str "faint", Label.str "2 atm", Label.str "40 C"],
       [Label.str "fine", Label.str "1 atm", Label.str "10 C"],
       [Label.str "fine", Label.str "1 atm", Label.str "20 C"],
       [Label.str "fine", Label.str "1 atm", Label.str "30 C"],
       [Label.str "fine", Label.str "1 atm", Label.str "40 C"]]
    ∧ u.values =
      [[0, 1, 2, 3, 4, 5], [30, 31, 32, 33, 34, 35],
       [60, 61, 62, 63, 64, 65], [90, 91, 92, 93, 94, 95],
       [18, 19, 20, 21, 22, 23], [48, 49, 50, 51, 52, 53],
       [78, 79, 80, 81, 82, 83], [108, 109, 110, 111, 112, 113],
       [24, 25, 26, 27, 28, 29], [54, 55, 56, 57, 58, 59],
       [84, 85, 86, 87, 88, 89], [114, 115, 116, 117, 118, 119],
       [12, 13, 14, 15, 16, 17], [42, 43, 44, 45, 46, 47],
       [72, 73, 74, 75, 76, 77], [102, 103, 104, 105, 106, 107],
       [6, 7, 8, 9, 10, 11], [36, 37, 38, 39, 40, 41],
       [66, 67, 68, 69, 70, 71], [96, 97, 98, 99, 100, 101]] := by
  refine ⟨_, _, rfl, rfl, ?_, ?_, ?_⟩ <;> decide

/-- Fidelity of the model to the repository: on a stand-in for the
notebook's block table (same six observables) and its `Dimension`
partition, the modelled `regroup_levels` reproduces the recorded
`regrouped_df` column MultiIndex — codes ((X,vx),(X,x),(Y,vy),(Y,y),
(Z,vz),(Z,z)) — with each value column following its observable. -/
theorem model_matches_recorded_col_regroup :
    ∃ t u, df_from_blocks blocksNB labelsNB obsNB
        ["Temperature", "Pressure"] = .ok t
    ∧ regroup_levels t groupsXYZ "Observables" true "Dimension" = .ok u
    ∧ u.cols.names = ["Dimension", "Observables"]
    ∧ u.cols.tuples =
      [[Label.str "X", Label.str "vx"], [Label.str "X", Label.str "x"],
       [Label.str "Y", Label.str "vy"], [Label.str "Y", Label.str "y"],
       [Label.str "Z", Label.str "vz"], [Label.str "Z", Label.str "z"]]
    ∧ u.values = [[1, 4, 2, 5, 3, 6], [7, 10, 8, 11, 9, 12]] := by
  refine ⟨_, _, rfl, rfl, ?_, ?_, ?_⟩ <;> decide

end FormatTools
